import Mathlib

/-!
Verification of the sudoku solver in `sudoku-solver.py`.

The solver keeps a 9x9 grid whose cells are either a resolved digit or a
Python list of remaining candidate digits.  The embedding below mirrors the
source faithfully, including its aliasing behaviour: Python dictionaries of
neighbours hold references to the live candidate lists, and a list object
frozen by `self.state[r][c] = value` keeps the contents it had at that moment.
To model this, a fixed cell carries a `ghost` field: the contents of the
candidate-list object at the moment the cell was fixed.  Stale dictionary
reads (`analise_empty_value`) go through `derefList`, which returns the live
list for a candidate cell and the frozen `ghost` for a fixed one.

Recursion (`fill_in_square` / `analise_empty_value` / `narrow` / `solve`) is
embedded with a fuel-indexed engine: `engine (n+1)` answers calls by running
the source code of each method, delegating every nested call to `engine n`.
`Res.nofuel` means the fuel ran out; `Res.crash` models the one place where
the source can raise an exception (`list.remove` on a missing element inside
`remove_value`, reachable only from `solve`'s backtracking path).
-/

abbrev Pos := Nat × Nat

inductive Cell where
  | fixed (v : Nat) (ghost : List Nat)
  | cands (l : List Nat)
  deriving DecidableEq

abbrev GState := Pos → Cell

def setCell (s : GState) (p : Pos) (c : Cell) : GState :=
  fun q => if q = p then c else s q

/-- Reading a candidate-list object through a stored Python reference: the live
list if the cell is still unresolved, the frozen contents otherwise. -/
def derefList (s : GState) (p : Pos) : List Nat :=
  match s p with
  | .fixed _ g => g
  | .cands l => l

def Cell.isCands : Cell → Bool
  | .cands _ => true
  | .fixed _ _ => false

/-- `itertools.product(range(9), repeat=2)`: all positions in row-major order. -/
def allPositions : List Pos :=
  (List.range 9).flatMap (fun r => (List.range 9).map (fun c => (r, c)))

/-- The nine cells of the 3x3 box containing `p`, in the source's iteration
order. -/
def boxKeys (p : Pos) : List Pos :=
  ((List.range 3).flatMap (fun i => (List.range 3).map (fun j => (i, j)))).map
    (fun q => (p.1 - p.1 % 3 + q.1, p.2 - p.2 % 3 + q.2))

/-- Row/column keys in `get_neighbors` insertion order: for each `i`, first the
row entry then the column entry. -/
def rowColKeys (p : Pos) (sr sc : Bool) : List Pos :=
  (List.range 9).flatMap (fun i =>
    (if sr then [(p.1, i)] else []) ++ (if sc then [(i, p.2)] else []))

/-- Python dict key order: first insertion wins, later assignments do not move
a key. -/
def dedupFirst (l : List Pos) : List Pos :=
  l.foldl (fun acc x => if x ∈ acc then acc else acc ++ [x]) []

/-- Key order of the dictionary returned by `get_neighbors(position, section)`;
the input position is deleted at the end. -/
def get_neighbor_keys (p : Pos) (sr sc sb : Bool) : List Pos :=
  (dedupFirst (rowColKeys p sr sc ++ (if sb then boxKeys p else []))).filter
    (fun q => q ≠ p)

def neighborKeysAll (p : Pos) : List Pos := get_neighbor_keys p true true true

/-- `get_empty_neighbours`: the neighbour keys whose cells currently hold a
candidate list. -/
def emptyNeighborKeys (s : GState) (p : Pos) (sr sc sb : Bool) : List Pos :=
  (get_neighbor_keys p sr sc sb).filter (fun q => (s q).isCands)

/-- `setup`: an empty cell becomes the list 1..9 with every value held by an
already-given neighbour removed; a given cell stays fixed.  (During the
source's sweep, not-yet-converted empty cells read as `int 0` and are skipped
by the `> 0` guard, so only originally nonzero neighbours are removed.) -/
def setupCell (input : Pos → Nat) (p : Pos) : Cell :=
  if input p = 0 then
    .cands ((neighborKeysAll p).foldl
      (fun acc q => if 0 < input q ∧ input q ∈ acc then acc.erase (input q) else acc)
      (List.range' 1 9))
  else .fixed (input p) []

def setupState (input : Pos → Nat) : GState := fun p => setupCell input p

/-- `remove_value`: a no-op on a fixed cell; on a candidate cell it calls
`list.remove`, which raises `ValueError` (modelled as `none`) when the value
is absent. -/
def remove_value (s : GState) (p : Pos) (v : Nat) : Option GState :=
  match s p with
  | .cands l => if v ∈ l then some (setCell s p (.cands (l.erase v))) else none
  | .fixed _ _ => some s

/-- `get_empty_states`: positions of candidate cells, row-major. -/
def get_empty_states (s : GState) : List Pos :=
  allPositions.filter (fun p => (s p).isCands)

/-- `check`: −1 iff some fixed cell shares its digit with a fixed neighbour. -/
def check (s : GState) : Int :=
  if allPositions.any (fun p =>
      match s p with
      | .fixed v _ => (neighborKeysAll p).any (fun q =>
          match s q with
          | .fixed w _ => w == v
          | .cands _ => false)
      | .cands _ => false)
  then -1 else 0

/-- `is_solved`: 1 iff no cell is a candidate list. -/
def is_solved (s : GState) : Int :=
  if allPositions.all (fun p => !(s p).isCands) then 1 else 0

inductive OCell where
  | num (z : Int)
  | possible (l : List Nat)
  deriving DecidableEq

/-- `get_numpy_proper_state`. -/
def get_numpy_proper_state (s : GState) (solvable : Int) : Pos → OCell :=
  fun p =>
    if solvable = -1 then .num (-1)
    else if solvable = 0 then
      match s p with
      | .fixed v _ => .num (v : Int)
      | .cands _ => .num 0
    else
      match s p with
      | .fixed v _ => .num (v : Int)
      | .cands l => .possible l

/-- Stable insertion into a list sorted by second component (`a` goes before
the first element whose key is not below it), matching Python's stable sort. -/
def ordInsertSnd (a : Nat × Nat) : List (Nat × Nat) → List (Nat × Nat)
  | [] => [a]
  | b :: l => if a.2 ≤ b.2 then a :: b :: l else b :: ordInsertSnd a l

def sortBySnd : List (Nat × Nat) → List (Nat × Nat)
  | [] => []
  | a :: l => ordInsertSnd a (sortBySnd l)

/-- Number of empty neighbours of `p` whose candidate list contains `v`. -/
def constraintCount (s : GState) (p : Pos) (v : Nat) : Nat :=
  ((emptyNeighborKeys s p true true true).filter
    (fun q => decide (v ∈ derefList s q))).length

/-- `least_constraining_value`: pair each candidate with its constraint count
(in list order), stable-sort by count, take the first digit. -/
def least_constraining_value (s : GState) (p : Pos) : Nat :=
  ((sortBySnd ((derefList s p).map (fun v => (v, constraintCount s p v)))).headD
    (0, 0)).1

/-- The nine fixed positions of `narrow`'s sanity pass. -/
def diag_positions : List Pos :=
  [(0, 0), (1, 3), (2, 6), (3, 1), (4, 4), (5, 7), (6, 2), (7, 5), (8, 8)]

/-- `get_sets`: the row (i=0), column (i=1) or box (i=2) through `p`,
including `p` itself (appended last, as in the source). -/
def unit_keys (p : Pos) (i : Nat) : List Pos :=
  get_neighbor_keys p (i == 0) (i == 1) (i == 2) ++ [p]

/-- A value is fixed somewhere in the unit or appears in some candidate list. -/
def unitHasValue (s : GState) (unit : List Pos) (v : Nat) : Bool :=
  unit.any (fun q =>
    match s q with
    | .fixed w _ => w == v
    | .cands l => decide (v ∈ l))

/-- `narrow`'s initial sanity pass fails iff some digit is neither fixed nor
possible in the row, column or box of one of the nine chosen positions. -/
def sanityFails (s : GState) : Bool :=
  diag_positions.any (fun p =>
    (List.range 3).any (fun i =>
      (List.range' 1 9).any (fun v => !unitHasValue s (unit_keys p i) v)))

/-- `sorted(empty.items(), key=len)[0][0]`: first (row-major) empty position of
minimal candidate-list length; `none` when the grid has no empty cell. -/
def mrvTarget (s : GState) : Option Pos :=
  match get_empty_states s with
  | [] => none
  | c :: rest => some (rest.foldl (fun best q =>
      if (derefList s q).length < (derefList s best).length then q else best) c)

inductive Res where
  | ok (code : Int) (s : GState)
  | crash
  | nofuel

def Res.andThen (r : Res) (f : Int → GState → Res) : Res :=
  match r with
  | .ok c s => f c s
  | .crash => .crash
  | .nofuel => .nofuel

structure Engine where
  fill_in_square : GState → Pos → Nat → Res
  analise_empty_value : GState → Pos → Res
  narrow : GState → Res
  solve : GState → Res
  solveLoop : Pos → GState → GState → Res

/-- First loop of `fill_in_square`: remove `v` from each empty neighbour that
contains it, collecting the reduced positions; return early (flag `true`) on a
neighbour whose list is empty and does not contain `v`. -/
def fillRemovePass (v : Nat) : GState → List Pos → GState × List Pos × Bool
  | s, [] => (s, [], false)
  | s, c :: rest =>
    match s c with
    | .cands l =>
      if v ∈ l then
        let r := fillRemovePass v (setCell s c (.cands (l.erase v))) rest
        (r.1, c :: r.2.1, r.2.2)
      else if l = [] then (s, [], true)
      else fillRemovePass v s rest
    | .fixed _ g =>
      if v ∈ g then
        let r := fillRemovePass v s rest
        (r.1, c :: r.2.1, r.2.2)
      else if g = [] then (s, [], true)
      else fillRemovePass v s rest

/-- Second loop of `fill_in_square` over the reduced positions. -/
def fillLoop2 (E : Engine) : GState → List Pos → Res
  | t, [] => .ok 0 t
  | t, c :: rest =>
    (E.analise_empty_value t c).andThen (fun ra t1 =>
      if ra = -1 then .ok (-1) t1
      else
        match t1 c with
        | .fixed _ _ => fillLoop2 E t1 rest
        | .cands lc =>
          if lc.length = 0 then .ok (-1) t1
          else if lc.length = 1 then
            (E.fill_in_square t1 c (lc.headD 0)).andThen (fun r2 t2 =>
              if r2 = -1 then .ok (-1) t2 else fillLoop2 E t2 rest)
          else fillLoop2 E t1 rest)

/-- Inner value loop of `analise_empty_value` for one unit.  The count for a
value reads the frozen copy `sp` for the analysed position itself and the
(live or frozen) list objects for the other cells captured at entry. -/
def analiseValues (E : Engine) (sp : List Nat) (p : Pos) (unit : List Pos) :
    GState → List Nat → Res
  | t, [] => .ok 0 t
  | t, v :: vs =>
    match unit.filter
        (fun c => if c = p then decide (v ∈ sp) else decide (v ∈ derefList t c)) with
    | [c0] =>
      if (t c0).isCands then
        (E.fill_in_square t c0 v).andThen (fun r t1 =>
          if r = -1 then .ok (-1) t1 else analiseValues E sp p unit t1 vs)
      else analiseValues E sp p unit t vs
    | _ => analiseValues E sp p unit t vs

/-- Loop of `analise_empty_value` over the three unit dictionaries. -/
def analiseUnits (E : Engine) (sp : List Nat) (p : Pos) :
    GState → List (List Pos) → Res
  | t, [] => .ok 0 t
  | t, u :: us =>
    (analiseValues E sp p u t (List.range' 1 9)).andThen (fun r t1 =>
      if r = -1 then .ok (-1) t1 else analiseUnits E sp p t1 us)

/-- `narrow`'s sweep over the empty squares captured at sweep start. -/
def narrowSweep (E : Engine) : GState → List Pos → Res
  | t, [] => .ok 0 t
  | t, c :: rest =>
    match t c with
    | .fixed _ _ => narrowSweep E t rest
    | .cands l =>
      if l.length = 1 then
        (E.fill_in_square t c (l.headD 0)).andThen (fun r t1 =>
          if r = -1 then .ok (-1) t1 else narrowSweep E t1 rest)
      else if l.length = 0 then .ok (-1) t
      else narrowSweep E t rest

/-- `fill_in_square` at one fuel level. -/
def mkFillIn (E : Engine) (s : GState) (p : Pos) (v : Nat) : Res :=
  let ens := emptyNeighborKeys s p true true true
  match s p with
  | .cands l0 =>
    match fillRemovePass v (setCell s p (.fixed v l0)) ens with
    | (s2, reduced, flag) => if flag then .ok (-1) s2 else fillLoop2 E s2 reduced
  | .fixed _ _ => .ok (-2) s

/-- `analise_empty_value` at one fuel level.  The three unit dictionaries and
the frozen copy of the position's candidates are captured at entry. -/
def mkAnalise (E : Engine) (s : GState) (p : Pos) : Res :=
  match s p with
  | .fixed _ _ => .ok 0 s
  | .cands l =>
    if l.length = 0 then .ok (-1) s
    else
      analiseUnits E l p s
        ((List.range 3).map (fun i =>
          emptyNeighborKeys s p (i == 0) (i == 1) (i == 2) ++ [p]))

/-- `narrow` at one fuel level. -/
def mkNarrow (E : Engine) (s : GState) : Res :=
  if sanityFails s then .ok (-1) s
  else
    let es := get_empty_states s
    if es.length = 0 then .ok 1 s
    else narrowSweep E s es

/-- The guessing `while` loop of `solve`.  `copy` is `state_copy`; a failed
guess restores the grid from it, removes the guessed digit (this is the
`remove_value` call that can raise), re-analyses, and refreshes the snapshot
(the recursive call receives the new state as both live grid and snapshot). -/
def mkSolveLoop (E : Engine) (p : Pos) (live copy : GState) : Res :=
  match live p with
  | .cands (_ :: _) =>
    let g := least_constraining_value live p
    (E.fill_in_square live p g).andThen (fun r1 s1 =>
      (if r1 = 0 then E.solve s1 else .ok r1 s1).andThen (fun rg s2 =>
        if rg = 1 then .ok 1 s2
        else if rg = -1 then
          match remove_value copy p g with
          | none => .crash
          | some s3 =>
            (E.analise_empty_value s3 p).andThen (fun ra s4 =>
              if ra = -1 then .ok (-1) s4
              else E.solveLoop p s4 s4)
        else E.solveLoop p s2 copy))
  | .cands [] => .ok (-1) live
  | .fixed _ _ => E.solve live

/-- `solve` at one fuel level. -/
def mkSolve (E : Engine) (s : GState) : Res :=
  (E.narrow s).andThen (fun r s1 =>
    if r ≠ 0 then .ok r s1
    else if is_solved s1 = 1 then .ok 1 s1
    else
      match mrvTarget s1 with
      | none => .ok (-1) s1
      | some p => E.solveLoop p s1 s1)

def stepEngine (E : Engine) : Engine :=
  ⟨mkFillIn E, mkAnalise E, mkNarrow E, mkSolve E, mkSolveLoop E⟩

def engine0 : Engine :=
  ⟨fun _ _ _ => .nofuel, fun _ _ => .nofuel, fun _ => .nofuel, fun _ => .nofuel,
   fun _ _ _ => .nofuel⟩

def engine : Nat → Engine
  | 0 => engine0
  | n + 1 => stepEngine (engine n)

/-- `get_solved_numpy`: run `check`, then `solve`, and convert the state. -/
def get_solved_numpy (fuel : Nat) (s : GState) : Option (Pos → OCell) :=
  if check s = -1 then some (get_numpy_proper_state s (-1))
  else
    match (engine fuel).solve s with
    | .ok c s' => some (get_numpy_proper_state s' c)
    | _ => none

/-- `sudoku_solver`: construct the state (running `setup`) and solve. -/
def sudoku_solver (fuel : Nat) (input : Pos → Nat) : Option (Pos → OCell) :=
  get_solved_numpy fuel (setupState input)

/-! ### Reachable states -/

/-- The grid states the program can hold: the constructed state, and anything
produced from a reachable state by the engine's operations or by
`remove_value` (snapshot restore needs no constructor: a snapshot is an
earlier reachable state). -/
inductive Reachable : GState → Prop where
  | init : ∀ input, Reachable (setupState input)
  | fillStep : ∀ fuel s p v r s', Reachable s →
      (engine fuel).fill_in_square s p v = .ok r s' → Reachable s'
  | analiseStep : ∀ fuel s p r s', Reachable s →
      (engine fuel).analise_empty_value s p = .ok r s' → Reachable s'
  | narrowStep : ∀ fuel s r s', Reachable s →
      (engine fuel).narrow s = .ok r s' → Reachable s'
  | solveStep : ∀ fuel s r s', Reachable s →
      (engine fuel).solve s = .ok r s' → Reachable s'
  | loopStep : ∀ fuel p s r s', Reachable s →
      (engine fuel).solveLoop p s s = .ok r s' → Reachable s'
  | removeStep : ∀ s p v s', Reachable s →
      remove_value s p v = some s' → Reachable s'

/-! ### Concrete states and inputs used by the witnesses below -/

def twoFivesGrid : Pos → Nat := fun p => if p = (0, 0) ∨ p = (0, 4) then 5 else 0

def fullGridList : List (List Nat) :=
  [[1, 2, 3, 4, 5, 6, 7, 8, 9],
   [4, 5, 6, 7, 8, 9, 1, 2, 3],
   [7, 8, 9, 1, 2, 3, 4, 5, 6],
   [2, 3, 4, 5, 6, 7, 8, 9, 1],
   [5, 6, 7, 8, 9, 1, 2, 3, 4],
   [8, 9, 1, 2, 3, 4, 5, 6, 7],
   [3, 4, 5, 6, 7, 8, 9, 1, 2],
   [6, 7, 8, 9, 1, 2, 3, 4, 5],
   [9, 1, 2, 3, 4, 5, 6, 7, 8]]

def fullGridInput : Pos → Nat := fun p => (fullGridList.getD p.1 []).getD p.2 0

def c4State : GState := fun p =>
  if p = (0, 0) then .cands [3, 5]
  else if p = (0, 1) then .cands [3]
  else .fixed 7 []

def c5State : GState := fun _ => .cands [1, 2]

def c6State : GState := fun _ => .fixed 5 []

def c7State : GState := fun _ => .cands []

def c8State : GState := fun p =>
  if p = (0, 0) then .cands [2, 4, 6]
  else if p = (0, 1) then .cands [2, 4]
  else if p = (0, 2) then .cands [4, 6]
  else .fixed 1 []

def c9Input : Pos → Nat := fun _ => 0

/-! ### Basic state lemmas -/

theorem setCell_self (s : GState) (p : Pos) (c : Cell) : setCell s p c p = c := by
  simp [setCell]

theorem setCell_ne (s : GState) (p q : Pos) (c : Cell) (h : q ≠ p) :
    setCell s p c q = s q := by
  simp [setCell, h]

/-- Every fixed cell of `s` is fixed with the same digit in `s'` (the frozen
ghost list may differ). -/
def FixExt (s s' : GState) : Prop :=
  ∀ p v, (∃ g, s p = .fixed v g) → ∃ g', s' p = .fixed v g'

theorem FixExt_refl (s : GState) : FixExt s s := fun _ _ h => h

theorem FixExt_trans {s t u : GState} (h1 : FixExt s t) (h2 : FixExt t u) :
    FixExt s u := fun p v h => h2 p v (h1 p v h)

/-- Overwriting a candidate cell (with anything) preserves the fixed cells. -/
theorem FixExt_setCell_of_cands {s : GState} {p : Pos} {l : List Nat} (c : Cell)
    (h : s p = .cands l) : FixExt s (setCell s p c) := by
  intro q v ⟨g, hq⟩
  rcases eq_or_ne q p with rfl | hne
  · rw [h] at hq; exact absurd hq (by simp)
  · exact ⟨g, by rw [setCell_ne s p q c hne, hq]⟩

/-- A well-formed candidate list: strictly ascending, digits 1..9. -/
def SortedCands (l : List Nat) : Prop :=
  l.Pairwise (· < ·) ∧ ∀ v ∈ l, v ∈ List.range' 1 9

/-- Every candidate list in the grid is well formed. -/
def AllSorted (s : GState) : Prop :=
  ∀ p l, s p = .cands l → SortedCands l

theorem SortedCands.erase {l : List Nat} (h : SortedCands l) (v : Nat) :
    SortedCands (l.erase v) :=
  ⟨h.1.sublist (List.erase_sublist v l),
   fun w hw => h.2 w ((List.erase_sublist v l).subset hw)⟩

theorem AllSorted_setCell_fixed {s : GState} (h : AllSorted s) (p : Pos)
    (v : Nat) (g : List Nat) : AllSorted (setCell s p (.fixed v g)) := by
  intro q l hq
  rcases eq_or_ne q p with rfl | hne
  · rw [setCell_self] at hq; exact absurd hq (by simp)
  · exact h q l (by rwa [setCell_ne s p q _ hne] at hq)

theorem AllSorted_setCell_cands {s : GState} (h : AllSorted s) (p : Pos)
    {l : List Nat} (hl : SortedCands l) : AllSorted (setCell s p (.cands l)) := by
  intro q m hq
  rcases eq_or_ne q p with rfl | hne
  · rw [setCell_self] at hq
    cases hq; exact hl
  · exact h q m (by rwa [setCell_ne s p q _ hne] at hq)

theorem mem_get_neighbor_keys_ne {p q : Pos} {sr sc sb : Bool}
    (h : q ∈ get_neighbor_keys p sr sc sb) : q ≠ p := by
  simp only [get_neighbor_keys, List.mem_filter, decide_eq_true_eq] at h
  exact h.2

theorem mem_emptyNeighborKeys {s : GState} {p q : Pos} {sr sc sb : Bool} :
    q ∈ emptyNeighborKeys s p sr sc sb ↔
      q ∈ get_neighbor_keys p sr sc sb ∧ (s q).isCands = true := by
  simp [emptyNeighborKeys, List.mem_filter]

/-! ### `setup` produces well-formed candidate lists -/

theorem foldl_erase_sublist {α : Type} (step : List Nat → α → List Nat)
    (hstep : ∀ acc x, List.Sublist (step acc x) acc) :
    ∀ (xs : List α) (acc : List Nat), List.Sublist (xs.foldl step acc) acc := by
  intro xs
  induction xs with
  | nil => intro acc; exact List.Sublist.refl acc
  | cons x xs ih =>
    intro acc
    exact (ih (step acc x)).trans (hstep acc x)

theorem setup_allSorted (input : Pos → Nat) : AllSorted (setupState input) := by
  intro p l hp
  simp only [setupState, setupCell] at hp
  split at hp
  · injection hp with hp'
    subst hp'
    have hsub : List.Sublist
        ((neighborKeysAll p).foldl
          (fun acc q => if 0 < input q ∧ input q ∈ acc then acc.erase (input q) else acc)
          (List.range' 1 9))
        (List.range' 1 9) :=
      foldl_erase_sublist _
        (fun acc q => by
          split
          · exact List.erase_sublist _ _
          · exact List.Sublist.refl acc)
        (neighborKeysAll p) (List.range' 1 9)
    exact ⟨(show (List.range' 1 9).Pairwise (· < ·) by decide).sublist hsub,
      fun v hv => hsub.subset hv⟩
  · exact Cell.noConfusion hp

theorem setup_fixed {input : Pos → Nat} {p : Pos} (h : input p ≠ 0) :
    setupState input p = .fixed (input p) [] := by
  simp [setupState, setupCell, h]

/-! ### Lemmas about the removal pass of `fill_in_square` -/

theorem fillRemovePass_fixExt (v : Nat) :
    ∀ (l : List Pos) (s : GState), FixExt s (fillRemovePass v s l).1 := by
  intro l
  induction l with
  | nil => intro s; exact FixExt_refl s
  | cons c rest ih =>
    intro s
    cases hc : s c with
    | cands lc =>
      by_cases hv : v ∈ lc
      · simp only [fillRemovePass, hc, if_pos hv]
        exact FixExt_trans (FixExt_setCell_of_cands _ hc) (ih _)
      · by_cases hnil : lc = []
        · simp only [fillRemovePass, hc, if_neg hv, if_pos hnil]
          exact FixExt_refl s
        · simp only [fillRemovePass, hc, if_neg hv, if_neg hnil]
          exact ih s
    | fixed w g =>
      by_cases hv : v ∈ g
      · simp only [fillRemovePass, hc, if_pos hv]
        exact ih s
      · by_cases hnil : g = []
        · simp only [fillRemovePass, hc, if_neg hv, if_pos hnil]
          exact FixExt_refl s
        · simp only [fillRemovePass, hc, if_neg hv, if_neg hnil]
          exact ih s

theorem fillRemovePass_allSorted (v : Nat) :
    ∀ (l : List Pos) (s : GState), AllSorted s → AllSorted (fillRemovePass v s l).1 := by
  intro l
  induction l with
  | nil => intro s hs; exact hs
  | cons c rest ih =>
    intro s hs
    cases hc : s c with
    | cands lc =>
      by_cases hv : v ∈ lc
      · simp only [fillRemovePass, hc, if_pos hv]
        exact ih _ (AllSorted_setCell_cands hs c ((hs c lc hc).erase v))
      · by_cases hnil : lc = []
        · simp only [fillRemovePass, hc, if_neg hv, if_pos hnil]; exact hs
        · simp only [fillRemovePass, hc, if_neg hv, if_neg hnil]; exact ih s hs
    | fixed w g =>
      by_cases hv : v ∈ g
      · simp only [fillRemovePass, hc, if_pos hv]; exact ih s hs
      · by_cases hnil : g = []
        · simp only [fillRemovePass, hc, if_neg hv, if_pos hnil]; exact hs
        · simp only [fillRemovePass, hc, if_neg hv, if_neg hnil]; exact ih s hs

/-- A candidate cell whose list does not contain `v` is untouched by the
removal pass. -/
theorem fillRemovePass_cands_stable (v : Nat) :
    ∀ (l : List Pos) (s : GState) (q : Pos) (lq : List Nat),
      s q = .cands lq → v ∉ lq → (fillRemovePass v s l).1 q = .cands lq := by
  intro l
  induction l with
  | nil => intro s q lq hq _; exact hq
  | cons c rest ih =>
    intro s q lq hq hv
    cases hc : s c with
    | cands lc =>
      by_cases hvc : v ∈ lc
      · have hne : c ≠ q := by
          rintro rfl
          rw [hq] at hc
          injection hc with h
          exact hv (h ▸ hvc)
        simp only [fillRemovePass, hc, if_pos hvc]
        exact ih _ q lq (by rw [setCell_ne _ _ _ _ (Ne.symm hne)]; exact hq) hv
      · by_cases hnil : lc = []
        · simp only [fillRemovePass, hc, if_neg hvc, if_pos hnil]; exact hq
        · simp only [fillRemovePass, hc, if_neg hvc, if_neg hnil]; exact ih s q lq hq hv
    | fixed w g =>
      by_cases hvc : v ∈ g
      · simp only [fillRemovePass, hc, if_pos hvc]; exact ih s q lq hq hv
      · by_cases hnil : g = []
        · simp only [fillRemovePass, hc, if_neg hvc, if_pos hnil]; exact hq
        · simp only [fillRemovePass, hc, if_neg hvc, if_neg hnil]; exact ih s q lq hq hv

/-- If some visited neighbour's list is exactly `[v]`, the pass either aborts
early (flag) or empties that cell and records it among the reduced
positions. -/
theorem fillRemovePass_contra (v : Nat) :
    ∀ (l : List Pos) (s : GState) (n : Pos), n ∈ l → s n = .cands [v] →
      (fillRemovePass v s l).2.2 = true ∨
      (n ∈ (fillRemovePass v s l).2.1 ∧ (fillRemovePass v s l).1 n = .cands []) := by
  intro l
  induction l with
  | nil => intro s n hn; exact absurd hn (List.not_mem_nil n)
  | cons c rest ih =>
    intro s n hn hsn
    rcases eq_or_ne c n with rfl | hne
    · have hv : v ∈ [v] := List.mem_singleton_self v
      simp only [fillRemovePass, hsn, if_pos hv, List.erase_cons_head]
      rcases Bool.eq_false_or_eq_true (fillRemovePass v (setCell s c (.cands [])) rest).2.2
        with hflag | hflag
      · exact Or.inl hflag
      · refine Or.inr ⟨List.mem_cons_self c _, ?_⟩
        exact fillRemovePass_cands_stable v rest _ c []
          (setCell_self s c (.cands [])) (List.not_mem_nil v)
    · have hn' : n ∈ rest := by
        rcases List.mem_cons.mp hn with h | h
        · exact absurd h.symm hne
        · exact h
      cases hc : s c with
      | cands lc =>
        by_cases hvc : v ∈ lc
        · simp only [fillRemovePass, hc, if_pos hvc]
          have := ih (setCell s c (.cands (lc.erase v))) n hn'
            (by rw [setCell_ne _ _ _ _ (Ne.symm hne)]; exact hsn)
          rcases this with h | ⟨h1, h2⟩
          · exact Or.inl h
          · exact Or.inr ⟨List.mem_cons_of_mem c h1, h2⟩
        · by_cases hnil : lc = []
          · simp only [fillRemovePass, hc, if_neg hvc, if_pos hnil]
            exact Or.inl trivial
          · simp only [fillRemovePass, hc, if_neg hvc, if_neg hnil]
            exact ih s n hn' hsn
      | fixed w g =>
        by_cases hvc : v ∈ g
        · simp only [fillRemovePass, hc, if_pos hvc]
          rcases ih s n hn' hsn with h | ⟨h1, h2⟩
          · exact Or.inl h
          · exact Or.inr ⟨List.mem_cons_of_mem c h1, h2⟩
        · by_cases hnil : g = []
          · simp only [fillRemovePass, hc, if_neg hvc, if_pos hnil]
            exact Or.inl trivial
          · simp only [fillRemovePass, hc, if_neg hvc, if_neg hnil]
            exact ih s n hn' hsn

/-! ### Stable sort lemmas for `least_constraining_value` -/

theorem ordInsertSnd_perm (a : Nat × Nat) :
    ∀ l, (ordInsertSnd a l).Perm (a :: l) := by
  intro l
  induction l with
  | nil => exact List.Perm.refl _
  | cons b m ih =>
    simp only [ordInsertSnd]
    split
    · exact List.Perm.refl _
    · exact (ih.cons b).trans (List.Perm.swap a b m)

theorem sortBySnd_perm : ∀ l, (sortBySnd l).Perm l := by
  intro l
  induction l with
  | nil => exact List.Perm.refl _
  | cons a m ih =>
    exact (ordInsertSnd_perm a (sortBySnd m)).trans (ih.cons a)

theorem sortBySnd_ne_nil {l : List (Nat × Nat)} (h : l ≠ []) : sortBySnd l ≠ [] := by
  intro hc
  have hp := sortBySnd_perm l
  rw [hc] at hp
  exact h hp.nil_eq.symm

theorem ordInsertSnd_headD (a b : Nat × Nat) (l : List (Nat × Nat)) :
    (ordInsertSnd a (b :: l)).headD (0, 0) = if a.2 ≤ b.2 then a else b := by
  simp only [ordInsertSnd]
  split <;> simp

/-- The head of the stable sort of `values.map (fun v => (v, c v))`: it is a
pair from the list, attains the minimal count, and among equal counts it
carries the smallest digit (for a strictly ascending `values`). -/
theorem sortmap_headD_spec (c : Nat → Nat) :
    ∀ (values : List Nat), values ≠ [] → values.Pairwise (· < ·) →
      ((sortBySnd (values.map (fun v => (v, c v)))).headD (0, 0)).1 ∈ values ∧
      ((sortBySnd (values.map (fun v => (v, c v)))).headD (0, 0)).2 =
        c ((sortBySnd (values.map (fun v => (v, c v)))).headD (0, 0)).1 ∧
      (∀ d ∈ values,
        ((sortBySnd (values.map (fun v => (v, c v)))).headD (0, 0)).2 ≤ c d) ∧
      (∀ d ∈ values,
        c d = ((sortBySnd (values.map (fun v => (v, c v)))).headD (0, 0)).2 →
        ((sortBySnd (values.map (fun v => (v, c v)))).headD (0, 0)).1 ≤ d) := by
  intro values
  induction values with
  | nil => intro h; exact absurd rfl h
  | cons v vs ih =>
    intro _ hpw
    have hpw' : vs.Pairwise (· < ·) := (List.pairwise_cons.mp hpw).2
    have hlt : ∀ d ∈ vs, v < d := (List.pairwise_cons.mp hpw).1
    rcases eq_or_ne vs [] with rfl | hvs
    · simp [sortBySnd, ordInsertSnd]
    · have hmap : vs.map (fun v => (v, c v)) ≠ [] := by
        simpa using hvs
      have hsne := sortBySnd_ne_nil hmap
      obtain ⟨b, m, hbm⟩ := List.exists_cons_of_ne_nil hsne
      have ihs := ih hvs hpw'
      rw [hbm] at ihs
      simp only [List.headD_cons] at ihs
      obtain ⟨hb1, hb2, hbmin, hbtie⟩ := ihs
      have hstep : sortBySnd ((v :: vs).map (fun v => (v, c v))) =
          ordInsertSnd (v, c v) (sortBySnd (vs.map (fun v => (v, c v)))) := by
        simp [sortBySnd]
      rw [hstep, hbm, ordInsertSnd_headD]
      split

      case isTrue hle =>
        refine ⟨List.mem_cons_self v vs, rfl, ?_, ?_⟩
        · intro d hd
          rcases List.mem_cons.mp hd with rfl | hd
          · exact le_refl _
          · exact le_trans hle (hbmin d hd)
        · intro d hd _
          rcases List.mem_cons.mp hd with rfl | hd
          · exact le_refl d
          · exact le_of_lt (hlt d hd)
      case isFalse hgt =>
        refine ⟨List.mem_cons_of_mem v hb1, hb2, ?_, ?_⟩
        · intro d hd
          rcases List.mem_cons.mp hd with rfl | hd
          · exact le_of_lt (Nat.lt_of_not_le hgt)
          · exact hbmin d hd
        · intro d hd htie
          rcases List.mem_cons.mp hd with rfl | hd
          · exact absurd (htie ▸ le_refl (c d)) hgt
          · exact hbtie d hd htie

theorem derefList_cands {s : GState} {p : Pos} {l : List Nat}
    (h : s p = .cands l) : derefList s p = l := by
  simp [derefList, h]

/-- The digit returned by `least_constraining_value` is one of the cell's
candidates. -/
theorem lcv_mem {s : GState} {p : Pos} {l : List Nat}
    (h : s p = .cands l) (hne : l ≠ []) : least_constraining_value s p ∈ l := by
  unfold least_constraining_value
  rw [derefList_cands h]
  have hmap : l.map (fun v => (v, constraintCount s p v)) ≠ [] := by simpa using hne
  have hsne := sortBySnd_ne_nil hmap
  obtain ⟨b, m, hbm⟩ := List.exists_cons_of_ne_nil hsne
  have hbmem : b ∈ sortBySnd (l.map (fun v => (v, constraintCount s p v))) := by
    rw [hbm]; exact List.mem_cons_self b m
  have : b ∈ l.map (fun v => (v, constraintCount s p v)) :=
    (sortBySnd_perm _).mem_iff.mp hbmem
  obtain ⟨w, hw, hwb⟩ := List.mem_map.mp this
  rw [hbm]
  simpa [List.headD_cons, ← hwb] using hw

/-! ### The joint engine invariant -/

/-- Properties of one fuel level of the engine, proved by induction on fuel:
fixed cells are never overwritten (`FixExt`), candidate lists stay well
formed, the returned codes are the ones the source can produce, a
`fill_in_square`/`analise_empty_value` call never resurrects an emptied
candidate list of another cell, `analise_empty_value` on an emptied cell
reports a contradiction at once, and no call ever raises (`Res.crash`). -/
structure EngineOK (E : Engine) : Prop where
  fill_ok : ∀ s p v r s', E.fill_in_square s p v = .ok r s' →
    FixExt s s' ∧ (AllSorted s → AllSorted s') ∧ (r = 0 ∨ r = -1 ∨ (r = -2 ∧ s' = s))
  fill_empty : ∀ n s p v r s', s n = .cands [] → p ≠ n →
    E.fill_in_square s p v = .ok r s' → s' n = .cands []
  fill_nocrash : ∀ s p v, E.fill_in_square s p v ≠ .crash
  an_ok : ∀ s p r s', E.analise_empty_value s p = .ok r s' →
    FixExt s s' ∧ (AllSorted s → AllSorted s') ∧ (r = 0 ∨ r = -1)
  an_empty : ∀ n s p r s', s n = .cands [] →
    E.analise_empty_value s p = .ok r s' → s' n = .cands []
  an_onempty : ∀ s p, s p = .cands [] →
    E.analise_empty_value s p = .ok (-1) s ∨ E.analise_empty_value s p = .nofuel
  an_nocrash : ∀ s p, E.analise_empty_value s p ≠ .crash
  nar_ok : ∀ s r s', E.narrow s = .ok r s' →
    FixExt s s' ∧ (AllSorted s → AllSorted s') ∧ (r = -1 ∨ r = 0 ∨ r = 1)
  nar_nocrash : ∀ s, E.narrow s ≠ .crash
  sol_ok : ∀ s r s', E.solve s = .ok r s' →
    FixExt s s' ∧ (AllSorted s → AllSorted s') ∧ (r = 1 ∨ r = -1)
  sol_nocrash : ∀ s, E.solve s ≠ .crash
  loop_ok : ∀ p s r s', E.solveLoop p s s = .ok r s' →
    FixExt s s' ∧ (AllSorted s → AllSorted s') ∧ (r = 1 ∨ r = -1)
  loop_nocrash : ∀ p s, E.solveLoop p s s ≠ .crash

theorem engine0_ok : EngineOK engine0 := by
  refine ⟨?_, ?_, ?_, ?_, ?_, ?_, ?_, ?_, ?_, ?_, ?_, ?_, ?_⟩ <;>
    intros <;> first
      | (exact Res.noConfusion (by assumption))
      | (exact Or.inr rfl)
      | (intro h; exact Res.noConfusion h)

/-! ### The reduced-positions loop of `fill_in_square` -/

theorem fillLoop2_spec (E : Engine) (hE : EngineOK E) :
    ∀ (l : List Pos) (t : GState),
      (fillLoop2 E t l ≠ .crash) ∧
      (∀ r s', fillLoop2 E t l = .ok r s' →
        FixExt t s' ∧ (AllSorted t → AllSorted s') ∧ (r = 0 ∨ r = -1)) ∧
      (∀ n r s', t n = .cands [] → fillLoop2 E t l = .ok r s' → s' n = .cands []) ∧
      (∀ n r s', n ∈ l → t n = .cands [] → fillLoop2 E t l = .ok r s' → r = -1) := by
  intro l
  induction l with
  | nil =>
    intro t
    refine ⟨by simp [fillLoop2], ?_, ?_, ?_⟩
    · intro r s' h
      injection h with h1 h2
      subst h1; subst h2
      exact ⟨FixExt_refl t, fun hs => hs, Or.inl rfl⟩
    · intro n r s' hn h
      injection h with h1 h2
      subst h2
      exact hn
    · intro n r s' hn
      exact absurd hn (List.not_mem_nil n)
  | cons c rest ih =>
    intro t
    cases han : E.analise_empty_value t c with
    | crash => exact absurd han (hE.an_nocrash t c)
    | nofuel =>
      have hrw : fillLoop2 E t (c :: rest) = .nofuel := by
        simp [fillLoop2, han, Res.andThen]
      rw [hrw]
      exact ⟨fun h => Res.noConfusion h,
        fun r s' h => Res.noConfusion h,
        fun n r s' _ h => Res.noConfusion h,
        fun n r s' _ _ h => Res.noConfusion h⟩
    | ok ra t1 =>
      obtain ⟨hext, hsort, hcode⟩ := hE.an_ok t c ra t1 han
      have hemp : ∀ n, t n = .cands [] → t1 n = .cands [] :=
        fun n hn => hE.an_empty n t c ra t1 hn han
      by_cases hra : ra = -1
      · have hrw : fillLoop2 E t (c :: rest) = .ok (-1) t1 := by
          simp [fillLoop2, han, Res.andThen, hra]
        rw [hrw]
        refine ⟨fun h => Res.noConfusion h, ?_, ?_, ?_⟩
        · intro r s' h
          injection h with h1 h2
          subst h1; subst h2
          exact ⟨hext, hsort, Or.inr rfl⟩
        · intro n r s' hn h
          injection h with h1 h2
          subst h2
          exact hemp n hn
        · intro n r s' _ _ h
          injection h with h1 h2
          exact h1.symm
      · cases hc : t1 c with
        | fixed w g =>
          have hrw : fillLoop2 E t (c :: rest) = fillLoop2 E t1 rest := by
            simp [fillLoop2, han, Res.andThen, hra, hc]
          rw [hrw]
          obtain ⟨ihnc, ihok, ihemp, ihcon⟩ := ih t1
          refine ⟨ihnc, ?_, ?_, ?_⟩
          · intro r s' h
            obtain ⟨h1, h2, h3⟩ := ihok r s' h
            exact ⟨FixExt_trans hext h1, fun hs => h2 (hsort hs), h3⟩
          · intro n r s' hn h
            exact ihemp n r s' (hemp n hn) h
          · intro n r s' hn hne h
            have hcn : c ≠ n := by
              rintro rfl
              rw [hemp c hne] at hc
              exact Cell.noConfusion hc
            have hn' : n ∈ rest := by
              rcases List.mem_cons.mp hn with h' | h'
              · exact absurd h'.symm hcn
              · exact h'
            exact ihcon n r s' hn' (hemp n hne) h
        | cands lc =>
          by_cases hl0 : lc.length = 0
          · have hrw : fillLoop2 E t (c :: rest) = .ok (-1) t1 := by
              simp [fillLoop2, han, Res.andThen, hra, hc, hl0]
            rw [hrw]
            refine ⟨fun h => Res.noConfusion h, ?_, ?_, ?_⟩
            · intro r s' h
              injection h with h1 h2
              subst h1; subst h2
              exact ⟨hext, hsort, Or.inr rfl⟩
            · intro n r s' hn h
              injection h with h1 h2
              subst h2
              exact hemp n hn
            · intro n r s' _ _ h
              injection h with h1 h2
              exact h1.symm
          · by_cases hl1 : lc.length = 1
            · have hcn : ∀ n, t1 n = .cands [] → c ≠ n := by
                intro n hn hcne
                rw [hcne, hn] at hc
                injection hc with h'
                rw [← h'] at hl0
                exact hl0 rfl
              cases hf : E.fill_in_square t1 c (lc.head?.getD 0) with
              | crash => exact absurd hf (hE.fill_nocrash t1 c (lc.head?.getD 0))
              | nofuel =>
                have hrw : fillLoop2 E t (c :: rest) = .nofuel := by
                  simp [fillLoop2, han, Res.andThen, hra, hc, hl0, hl1, hf]
                rw [hrw]
                exact ⟨fun h => Res.noConfusion h,
                  fun r s' h => Res.noConfusion h,
                  fun n r s' _ h => Res.noConfusion h,
                  fun n r s' _ _ h => Res.noConfusion h⟩
              | ok r2 t2 =>
                obtain ⟨hext2, hsort2, _⟩ := hE.fill_ok t1 c (lc.head?.getD 0) r2 t2 hf
                have hemp2 : ∀ n, t1 n = .cands [] → t2 n = .cands [] :=
                  fun n hn => hE.fill_empty n t1 c (lc.head?.getD 0) r2 t2 hn (hcn n hn) hf
                by_cases hr2 : r2 = -1
                · have hrw : fillLoop2 E t (c :: rest) = .ok (-1) t2 := by
                    simp [fillLoop2, han, Res.andThen, hra, hc, hl0, hl1, hf, hr2]
                  rw [hrw]
                  refine ⟨fun h => Res.noConfusion h, ?_, ?_, ?_⟩
                  · intro r s' h
                    injection h with h1 h2
                    subst h1; subst h2
                    exact ⟨FixExt_trans hext hext2, fun hs => hsort2 (hsort hs),
                      Or.inr rfl⟩
                  · intro n r s' hn h
                    injection h with h1 h2
                    subst h2
                    exact hemp2 n (hemp n hn)
                  · intro n r s' _ _ h
                    injection h with h1 h2
                    exact h1.symm
                · have hrw : fillLoop2 E t (c :: rest) = fillLoop2 E t2 rest := by
                    simp [fillLoop2, han, Res.andThen, hra, hc, hl0, hl1, hf, hr2]
                  rw [hrw]
                  obtain ⟨ihnc, ihok, ihemp, ihcon⟩ := ih t2
                  refine ⟨ihnc, ?_, ?_, ?_⟩
                  · intro r s' h
                    obtain ⟨h1, h2, h3⟩ := ihok r s' h
                    exact ⟨FixExt_trans (FixExt_trans hext hext2) h1,
                      fun hs => h2 (hsort2 (hsort hs)), h3⟩
                  · intro n r s' hn h
                    exact ihemp n r s' (hemp2 n (hemp n hn)) h
                  · intro n r s' hn hne h
                    have hn' : n ∈ rest := by
                      rcases List.mem_cons.mp hn with h' | h'
                      · exact absurd h'.symm (hcn n (hemp n hne))
                      · exact h'
                    exact ihcon n r s' hn' (hemp2 n (hemp n hne)) h
            · have hrw : fillLoop2 E t (c :: rest) = fillLoop2 E t1 rest := by
                simp [fillLoop2, han, Res.andThen, hra, hc, hl0, hl1]
              rw [hrw]
              obtain ⟨ihnc, ihok, ihemp, ihcon⟩ := ih t1
              refine ⟨ihnc, ?_, ?_, ?_⟩
              · intro r s' h
                obtain ⟨h1, h2, h3⟩ := ihok r s' h
                exact ⟨FixExt_trans hext h1, fun hs => h2 (hsort hs), h3⟩
              · intro n r s' hn h
                exact ihemp n r s' (hemp n hn) h
              · intro n r s' hn hne h
                have hcn : c ≠ n := by
                  rintro rfl
                  rw [hemp c hne] at hc
                  injection hc with h'
                  rw [← h'] at hl0
                  exact hl0 rfl
                have hn' : n ∈ rest := by
                  rcases List.mem_cons.mp hn with h' | h'
                  · exact absurd h'.symm hcn
                  · exact h'
                exact ihcon n r s' hn' (hemp n hne) h

/-! ### The unit/value loops of `analise_empty_value` -/

theorem analiseValues_spec (E : Engine) (hE : EngineOK E) (sp : List Nat) (p : Pos)
    (unit : List Pos) :
    ∀ (vs : List Nat) (t : GState),
      (analiseValues E sp p unit t vs ≠ .crash) ∧
      (∀ r s', analiseValues E sp p unit t vs = .ok r s' →
        FixExt t s' ∧ (AllSorted t → AllSorted s') ∧ (r = 0 ∨ r = -1)) ∧
      (∀ n r s', p ≠ n → t n = .cands [] →
        analiseValues E sp p unit t vs = .ok r s' → s' n = .cands []) := by
  intro vs
  induction vs with
  | nil =>
    intro t
    refine ⟨by simp [analiseValues], ?_, ?_⟩
    · intro r s' h
      injection h with h1 h2
      subst h1; subst h2
      exact ⟨FixExt_refl t, fun hs => hs, Or.inl rfl⟩
    · intro n r s' _ hn h
      injection h with h1 h2
      subst h2
      exact hn
  | cons v vs ih =>
    intro t
    cases hflt : unit.filter
        (fun c => if c = p then decide (v ∈ sp) else decide (v ∈ derefList t c)) with
    | nil =>
      have hrw : analiseValues E sp p unit t (v :: vs) = analiseValues E sp p unit t vs := by
        simp only [analiseValues, hflt]
      rw [hrw]
      exact ih t
    | cons c0 tail =>
      cases tail with
      | cons x xs =>
        have hrw : analiseValues E sp p unit t (v :: vs) =
            analiseValues E sp p unit t vs := by
          simp only [analiseValues, hflt]
        rw [hrw]
        exact ih t
      | nil =>
        have hmem : c0 ∈ unit.filter
            (fun c => if c = p then decide (v ∈ sp) else decide (v ∈ derefList t c)) := by
          rw [hflt]
          exact List.mem_singleton_self c0
        have hcond := (List.mem_filter.mp hmem).2
        cases hc0 : t c0 with
        | fixed w g =>
          have hrw : analiseValues E sp p unit t (v :: vs) =
              analiseValues E sp p unit t vs := by
            simp only [analiseValues, hflt, hc0, Cell.isCands]
            simp
          rw [hrw]
          exact ih t
        | cands lc0 =>
          have hc0n : ∀ n, p ≠ n → t n = .cands [] → c0 ≠ n := by
            intro n hpn hn hc0n
            subst hc0n
            by_cases hc0p : c0 = p
            · exact hpn hc0p.symm
            · rw [if_neg hc0p] at hcond
              rw [hn] at hc0
              injection hc0 with h'
              subst h'
              rw [derefList_cands hn] at hcond
              simp at hcond
          cases hf : E.fill_in_square t c0 v with
          | crash => exact absurd hf (hE.fill_nocrash t c0 v)
          | nofuel =>
            have hrw : analiseValues E sp p unit t (v :: vs) = .nofuel := by
              simp only [analiseValues, hflt, hc0, Cell.isCands, if_pos rfl, hf,
                Res.andThen]
              simp
            rw [hrw]
            exact ⟨fun h => Res.noConfusion h,
              fun r s' h => Res.noConfusion h,
              fun n r s' _ _ h => Res.noConfusion h⟩
          | ok r2 t2 =>
            obtain ⟨hext2, hsort2, _⟩ := hE.fill_ok t c0 v r2 t2 hf
            by_cases hr2 : r2 = -1
            · have hrw : analiseValues E sp p unit t (v :: vs) = .ok (-1) t2 := by
                simp only [analiseValues, hflt, hc0, Cell.isCands, hf, Res.andThen]
                simp [hr2]
              rw [hrw]
              refine ⟨fun h => Res.noConfusion h, ?_, ?_⟩
              · intro r s' h
                injection h with h1 h2
                subst h1; subst h2
                exact ⟨hext2, hsort2, Or.inr rfl⟩
              · intro n r s' hpn hn h
                injection h with h1 h2
                subst h2
                exact hE.fill_empty n t c0 v r2 t2 hn (hc0n n hpn hn) hf
            · have hrw : analiseValues E sp p unit t (v :: vs) =
                  analiseValues E sp p unit t2 vs := by
                simp only [analiseValues, hflt, hc0, Cell.isCands, hf, Res.andThen]
                simp [hr2]
              rw [hrw]
              obtain ⟨ihnc, ihok, ihemp⟩ := ih t2
              refine ⟨ihnc, ?_, ?_⟩
              · intro r s' h
                obtain ⟨h1, h2, h3⟩ := ihok r s' h
                exact ⟨FixExt_trans hext2 h1, fun hs => h2 (hsort2 hs), h3⟩
              · intro n r s' hpn hn h
                exact ihemp n r s' hpn
                  (hE.fill_empty n t c0 v r2 t2 hn (hc0n n hpn hn) hf) h

theorem analiseUnits_spec (E : Engine) (hE : EngineOK E) (sp : List Nat) (p : Pos) :
    ∀ (us : List (List Pos)) (t : GState),
      (analiseUnits E sp p t us ≠ .crash) ∧
      (∀ r s', analiseUnits E sp p t us = .ok r s' →
        FixExt t s' ∧ (AllSorted t → AllSorted s') ∧ (r = 0 ∨ r = -1)) ∧
      (∀ n r s', p ≠ n → t n = .cands [] →
        analiseUnits E sp p t us = .ok r s' → s' n = .cands []) := by
  intro us
  induction us with
  | nil =>
    intro t
    refine ⟨by simp [analiseUnits], ?_, ?_⟩
    · intro r s' h
      injection h with h1 h2
      subst h1; subst h2
      exact ⟨FixExt_refl t, fun hs => hs, Or.inl rfl⟩
    · intro n r s' _ hn h
      injection h with h1 h2
      subst h2
      exact hn
  | cons u us ih =>
    intro t
    obtain ⟨vnc, vok, vemp⟩ := analiseValues_spec E hE sp p u (List.range' 1 9) t
    cases hv : analiseValues E sp p u t (List.range' 1 9) with
    | crash => exact absurd hv vnc
    | nofuel =>
      have hrw : analiseUnits E sp p t (u :: us) = .nofuel := by
        simp only [analiseUnits, hv, Res.andThen]
      rw [hrw]
      exact ⟨fun h => Res.noConfusion h,
        fun r s' h => Res.noConfusion h,
        fun n r s' _ _ h => Res.noConfusion h⟩
    | ok ra t1 =>
      obtain ⟨hext, hsort, _⟩ := vok ra t1 hv
      by_cases hra : ra = -1
      · have hrw : analiseUnits E sp p t (u :: us) = .ok (-1) t1 := by
          simp only [analiseUnits, hv, Res.andThen]
          simp [hra]
        rw [hrw]
        refine ⟨fun h => Res.noConfusion h, ?_, ?_⟩
        · intro r s' h
          injection h with h1 h2
          subst h1; subst h2
          exact ⟨hext, hsort, Or.inr rfl⟩
        · intro n r s' hpn hn h
          injection h with h1 h2
          subst h2
          exact vemp n ra t1 hpn hn hv
      · have hrw : analiseUnits E sp p t (u :: us) = analiseUnits E sp p t1 us := by
          simp only [analiseUnits, hv, Res.andThen]
          simp [hra]
        rw [hrw]
        obtain ⟨ihnc, ihok, ihemp⟩ := ih t1
        refine ⟨ihnc, ?_, ?_⟩
        · intro r s' h
          obtain ⟨h1, h2, h3⟩ := ihok r s' h
          exact ⟨FixExt_trans hext h1, fun hs => h2 (hsort hs), h3⟩
        · intro n r s' hpn hn h
          exact ihemp n r s' hpn (vemp n ra t1 hpn hn hv) h

/-! ### The sweep loop of `narrow` -/

theorem narrowSweep_spec (E : Engine) (hE : EngineOK E) :
    ∀ (l : List Pos) (t : GState),
      (narrowSweep E t l ≠ .crash) ∧
      (∀ r s', narrowSweep E t l = .ok r s' →
        FixExt t s' ∧ (AllSorted t → AllSorted s') ∧ (r = 0 ∨ r = -1)) := by
  intro l
  induction l with
  | nil =>
    intro t
    refine ⟨by simp [narrowSweep], ?_⟩
    intro r s' h
    injection h with h1 h2
    subst h1; subst h2
    exact ⟨FixExt_refl t, fun hs => hs, Or.inl rfl⟩
  | cons c rest ih =>
    intro t
    cases hc : t c with
    | fixed w g =>
      have hrw : narrowSweep E t (c :: rest) = narrowSweep E t rest := by
        simp only [narrowSweep, hc]
      rw [hrw]
      exact ih t
    | cands lc =>
      by_cases hl1 : lc.length = 1
      · cases hf : E.fill_in_square t c (lc.head?.getD 0) with
        | crash => exact absurd hf (hE.fill_nocrash t c (lc.head?.getD 0))
        | nofuel =>
          have hrw : narrowSweep E t (c :: rest) = .nofuel := by
            simp only [narrowSweep, hc]
            simp [hl1, hf, Res.andThen]
          rw [hrw]
          exact ⟨fun h => Res.noConfusion h, fun r s' h => Res.noConfusion h⟩
        | ok ra t1 =>
          obtain ⟨hext, hsort, _⟩ := hE.fill_ok t c (lc.head?.getD 0) ra t1 hf
          by_cases hra : ra = -1
          · have hrw : narrowSweep E t (c :: rest) = .ok (-1) t1 := by
              simp only [narrowSweep, hc]
              simp [hl1, hf, Res.andThen, hra]
            rw [hrw]
            refine ⟨fun h => Res.noConfusion h, ?_⟩
            intro r s' h
            injection h with h1 h2
            subst h1; subst h2
            exact ⟨hext, hsort, Or.inr rfl⟩
          · have hrw : narrowSweep E t (c :: rest) = narrowSweep E t1 rest := by
              simp only [narrowSweep, hc]
              simp [hl1, hf, Res.andThen, hra]
            rw [hrw]
            obtain ⟨ihnc, ihok⟩ := ih t1
            refine ⟨ihnc, ?_⟩
            intro r s' h
            obtain ⟨h1, h2, h3⟩ := ihok r s' h
            exact ⟨FixExt_trans hext h1, fun hs => h2 (hsort hs), h3⟩
      · by_cases hl0 : lc.length = 0
        · have hrw : narrowSweep E t (c :: rest) = .ok (-1) t := by
            simp only [narrowSweep, hc]
            simp [hl1, hl0]
          rw [hrw]
          refine ⟨fun h => Res.noConfusion h, ?_⟩
          intro r s' h
          injection h with h1 h2
          subst h1; subst h2
          exact ⟨FixExt_refl t, fun hs => hs, Or.inr rfl⟩
        · have hrw : narrowSweep E t (c :: rest) = narrowSweep E t rest := by
            simp only [narrowSweep, hc]
            simp [hl1, hl0]
          rw [hrw]
          exact ih t

/-! ### The backtracking branch of `solve`'s guess loop -/

theorem backtrack_spec (E : Engine) (hE : EngineOK E) (p : Pos) (s : GState)
    (g : Nat) (l : List Nat) (hsp : s p = .cands l) (hg : g ∈ l) :
    ((match remove_value s p g with
      | none => Res.crash
      | some s3 =>
        (E.analise_empty_value s3 p).andThen (fun ra s4 =>
          if ra = -1 then .ok (-1) s4 else E.solveLoop p s4 s4)) ≠ Res.crash) ∧
    (∀ r s', (match remove_value s p g with
      | none => Res.crash
      | some s3 =>
        (E.analise_empty_value s3 p).andThen (fun ra s4 =>
          if ra = -1 then .ok (-1) s4 else E.solveLoop p s4 s4)) = .ok r s' →
      FixExt s s' ∧ (AllSorted s → AllSorted s') ∧ (r = 1 ∨ r = -1)) := by
  have hrem : remove_value s p g = some (setCell s p (.cands (l.erase g))) := by
    simp [remove_value, hsp, hg]
  have hstep : (match remove_value s p g with
      | none => Res.crash
      | some s3 =>
        (E.analise_empty_value s3 p).andThen (fun ra s4 =>
          if ra = -1 then .ok (-1) s4 else E.solveLoop p s4 s4)) =
      (E.analise_empty_value (setCell s p (.cands (l.erase g))) p).andThen (fun ra s4 =>
        if ra = -1 then .ok (-1) s4 else E.solveLoop p s4 s4) := by
    rw [hrem]
  rw [hstep]
  have hext3 : FixExt s (setCell s p (.cands (l.erase g))) :=
    FixExt_setCell_of_cands _ hsp
  have hsort3 : AllSorted s → AllSorted (setCell s p (.cands (l.erase g))) :=
    fun hs => AllSorted_setCell_cands hs p ((hs p l hsp).erase g)
  cases hana : E.analise_empty_value (setCell s p (.cands (l.erase g))) p with
  | crash => exact absurd hana (hE.an_nocrash _ p)
  | nofuel =>
    refine ⟨?_, ?_⟩
    · simp [Res.andThen, hana]
    · intro r s' h
      simp only [Res.andThen] at h
      exact Res.noConfusion h
  | ok ra s4 =>
    obtain ⟨hext4, hsort4, _⟩ := hE.an_ok _ p ra s4 hana
    by_cases hra : ra = -1
    · refine ⟨?_, ?_⟩
      · simp [Res.andThen, hana, hra]
      · intro r s' h
        simp only [Res.andThen, if_pos hra] at h
        injection h with h1 h2
        subst h1; subst h2
        exact ⟨FixExt_trans hext3 hext4, fun hs => hsort4 (hsort3 hs), Or.inr rfl⟩
    · refine ⟨?_, ?_⟩
      · simp only [Res.andThen, if_neg hra]
        exact hE.loop_nocrash p s4
      · intro r s' h
        simp only [Res.andThen, if_neg hra] at h
        obtain ⟨h1, h2, h3⟩ := hE.loop_ok p s4 r s' h
        exact ⟨FixExt_trans (FixExt_trans hext3 hext4) h1,
          fun hs => h2 (hsort4 (hsort3 hs)), h3⟩

/-! ### One engine step preserves the invariant -/

theorem step_fill_ok (E : Engine) (hE : EngineOK E) : ∀ s p v r s',
    mkFillIn E s p v = .ok r s' →
    FixExt s s' ∧ (AllSorted s → AllSorted s') ∧
      (r = 0 ∨ r = -1 ∨ (r = -2 ∧ s' = s)) := by
  intro s p v r s' h
  cases hsp : s p with
  | fixed w g =>
    simp only [mkFillIn, hsp] at h
    injection h with h1 h2
    subst h1; subst h2
    exact ⟨FixExt_refl s, fun hs => hs, Or.inr (Or.inr ⟨rfl, rfl⟩)⟩
  | cands l0 =>
    rcases hpass : fillRemovePass v (setCell s p (.fixed v l0))
        (emptyNeighborKeys s p true true true) with ⟨s2, red, flag⟩
    have hext1 : FixExt s s2 := by
      have h1 := FixExt_setCell_of_cands (Cell.fixed v l0) hsp
      have h2 := fillRemovePass_fixExt v (emptyNeighborKeys s p true true true)
        (setCell s p (.fixed v l0))
      rw [hpass] at h2
      exact FixExt_trans h1 h2
    have hsort1 : AllSorted s → AllSorted s2 := by
      intro hs
      have h2 := fillRemovePass_allSorted v (emptyNeighborKeys s p true true true)
        (setCell s p (.fixed v l0)) (AllSorted_setCell_fixed hs p v l0)
      rw [hpass] at h2
      exact h2
    simp only [mkFillIn, hsp, hpass] at h
    cases flag with
    | true =>
      rw [if_pos rfl] at h
      injection h with h1 h2
      subst h1; subst h2
      exact ⟨hext1, hsort1, Or.inr (Or.inl rfl)⟩
    | false =>
      rw [if_neg Bool.false_ne_true] at h
      obtain ⟨_, lok, _, _⟩ := fillLoop2_spec E hE red s2
      obtain ⟨h1, h2, h3⟩ := lok r s' h
      refine ⟨FixExt_trans hext1 h1, fun hs => h2 (hsort1 hs), ?_⟩
      rcases h3 with h3 | h3
      · exact Or.inl h3
      · exact Or.inr (Or.inl h3)

theorem step_fill_empty (E : Engine) (hE : EngineOK E) : ∀ n s p v r s',
    s n = .cands [] → p ≠ n → mkFillIn E s p v = .ok r s' → s' n = .cands [] := by
  intro n s p v r s' hn hpn h
  cases hsp : s p with
  | fixed w g =>
    simp only [mkFillIn, hsp] at h
    injection h with h1 h2
    subst h2
    exact hn
  | cands l0 =>
    rcases hpass : fillRemovePass v (setCell s p (.fixed v l0))
        (emptyNeighborKeys s p true true true) with ⟨s2, red, flag⟩
    have hn1 : setCell s p (.fixed v l0) n = .cands [] := by
      rw [setCell_ne s p n _ (Ne.symm hpn)]
      exact hn
    have hn2 : s2 n = .cands [] := by
      have := fillRemovePass_cands_stable v (emptyNeighborKeys s p true true true)
        (setCell s p (.fixed v l0)) n [] hn1 (List.not_mem_nil v)
      rw [hpass] at this
      exact this
    simp only [mkFillIn, hsp, hpass] at h
    cases flag with
    | true =>
      rw [if_pos rfl] at h
      simp only [Res.ok.injEq] at h
      rw [← h.2]
      exact hn2
    | false =>
      rw [if_neg Bool.false_ne_true] at h
      obtain ⟨_, _, lemp, _⟩ := fillLoop2_spec E hE red s2
      exact lemp n r s' hn2 h

theorem step_fill_nocrash (E : Engine) (hE : EngineOK E) : ∀ s p v,
    mkFillIn E s p v ≠ .crash := by
  intro s p v h
  cases hsp : s p with
  | fixed w g =>
    simp only [mkFillIn, hsp] at h
    exact Res.noConfusion h
  | cands l0 =>
    rcases hpass : fillRemovePass v (setCell s p (.fixed v l0))
        (emptyNeighborKeys s p true true true) with ⟨s2, red, flag⟩
    simp only [mkFillIn, hsp, hpass] at h
    cases flag with
    | true =>
      rw [if_pos rfl] at h
      exact Res.noConfusion h
    | false =>
      rw [if_neg Bool.false_ne_true] at h
      obtain ⟨lnc, _, _, _⟩ := fillLoop2_spec E hE red s2
      exact lnc h

/-- `fill_in_square` reports the contradiction when one of the empty
neighbours' candidate list is exactly `[v]` (the removal pass empties it and
the reduced-positions loop then finds the empty cell). -/
theorem step_fill_contra (E : Engine) (hE : EngineOK E) :
    ∀ s p v l n r s', s p = .cands l → n ∈ emptyNeighborKeys s p true true true →
      s n = .cands [v] → mkFillIn E s p v = .ok r s' → r = -1 := by
  intro s p v l n r s' hsp hnmem hn h
  have hpn : p ≠ n := by
    intro hpn
    subst hpn
    exact (mem_get_neighbor_keys_ne (List.mem_filter.mp hnmem).1) rfl
  rcases hpass : fillRemovePass v (setCell s p (.fixed v l))
      (emptyNeighborKeys s p true true true) with ⟨s2, red, flag⟩
  have hn1 : setCell s p (.fixed v l) n = .cands [v] := by
    rw [setCell_ne s p n _ (Ne.symm hpn)]
    exact hn
  have hcontra := fillRemovePass_contra v (emptyNeighborKeys s p true true true)
    (setCell s p (.fixed v l)) n hnmem hn1
  rw [hpass] at hcontra
  simp only at hcontra
  simp only [mkFillIn, hsp, hpass] at h
  rcases hcontra with hflag | ⟨hred, hredn⟩
  · subst hflag
    rw [if_pos rfl] at h
    simp only [Res.ok.injEq] at h
    exact h.1.symm
  · cases flag with
    | true =>
      rw [if_pos rfl] at h
      simp only [Res.ok.injEq] at h
      exact h.1.symm
    | false =>
      rw [if_neg Bool.false_ne_true] at h
      obtain ⟨_, _, _, lcon⟩ := fillLoop2_spec E hE red s2
      exact lcon n r s' hred hredn h

theorem step_an_ok (E : Engine) (hE : EngineOK E) : ∀ s p r s',
    mkAnalise E s p = .ok r s' →
    FixExt s s' ∧ (AllSorted s → AllSorted s') ∧ (r = 0 ∨ r = -1) := by
  intro s p r s' h
  cases hsp : s p with
  | fixed w g =>
    simp only [mkAnalise, hsp] at h
    simp only [Res.ok.injEq] at h
    rw [← h.1, ← h.2]
    exact ⟨FixExt_refl s, fun hs => hs, Or.inl rfl⟩
  | cands l =>
    by_cases hl : l.length = 0
    · simp only [mkAnalise, hsp, if_pos hl] at h
      simp only [Res.ok.injEq] at h
      rw [← h.1, ← h.2]
      exact ⟨FixExt_refl s, fun hs => hs, Or.inr rfl⟩
    · simp only [mkAnalise, hsp, if_neg hl] at h
      obtain ⟨_, uok, _⟩ := analiseUnits_spec E hE l p
        ((List.range 3).map (fun i =>
          emptyNeighborKeys s p (i == 0) (i == 1) (i == 2) ++ [p])) s
      exact uok r s' h

theorem step_an_empty (E : Engine) (hE : EngineOK E) : ∀ n s p r s',
    s n = .cands [] → mkAnalise E s p = .ok r s' → s' n = .cands [] := by
  intro n s p r s' hn h
  cases hsp : s p with
  | fixed w g =>
    simp only [mkAnalise, hsp] at h
    simp only [Res.ok.injEq] at h
    rw [← h.2]
    exact hn
  | cands l =>
    by_cases hl : l.length = 0
    · simp only [mkAnalise, hsp, if_pos hl] at h
      simp only [Res.ok.injEq] at h
      rw [← h.2]
      exact hn
    · rcases eq_or_ne p n with rfl | hpn
      · rw [hn] at hsp
        injection hsp with h'
        rw [← h'] at hl
        exact absurd rfl hl
      · simp only [mkAnalise, hsp, if_neg hl] at h
        obtain ⟨_, _, uemp⟩ := analiseUnits_spec E hE l p
          ((List.range 3).map (fun i =>
            emptyNeighborKeys s p (i == 0) (i == 1) (i == 2) ++ [p])) s
        exact uemp n r s' hpn hn h

theorem step_an_onempty (E : Engine) : ∀ s p, s p = .cands [] →
    mkAnalise E s p = .ok (-1) s ∨ mkAnalise E s p = .nofuel := by
  intro s p hsp
  left
  simp [mkAnalise, hsp]

theorem step_an_nocrash (E : Engine) (hE : EngineOK E) : ∀ s p,
    mkAnalise E s p ≠ .crash := by
  intro s p h
  cases hsp : s p with
  | fixed w g =>
    simp only [mkAnalise, hsp] at h
    exact Res.noConfusion h
  | cands l =>
    by_cases hl : l.length = 0
    · simp only [mkAnalise, hsp, if_pos hl] at h
      exact Res.noConfusion h
    · simp only [mkAnalise, hsp, if_neg hl] at h
      obtain ⟨unc, _, _⟩ := analiseUnits_spec E hE l p
        ((List.range 3).map (fun i =>
          emptyNeighborKeys s p (i == 0) (i == 1) (i == 2) ++ [p])) s
      exact unc h

theorem step_nar_spec (E : Engine) (hE : EngineOK E) : ∀ s,
    (mkNarrow E s ≠ .crash) ∧
    (∀ r s', mkNarrow E s = .ok r s' →
      FixExt s s' ∧ (AllSorted s → AllSorted s') ∧ (r = -1 ∨ r = 0 ∨ r = 1)) := by
  intro s
  by_cases hsan : sanityFails s = true
  · refine ⟨?_, ?_⟩
    · simp [mkNarrow, hsan]
    · intro r s' h
      simp only [mkNarrow, if_pos hsan] at h
      simp only [Res.ok.injEq] at h
      rw [← h.1, ← h.2]
      exact ⟨FixExt_refl s, fun hs => hs, Or.inl rfl⟩
  · by_cases hes : (get_empty_states s).length = 0
    · refine ⟨?_, ?_⟩
      · simp [mkNarrow, hsan, hes]
      · intro r s' h
        simp only [mkNarrow, if_neg hsan, if_pos hes] at h
        simp only [Res.ok.injEq] at h
        rw [← h.1, ← h.2]
        exact ⟨FixExt_refl s, fun hs => hs, Or.inr (Or.inr rfl)⟩
    · obtain ⟨snc, sok⟩ := narrowSweep_spec E hE (get_empty_states s) s
      refine ⟨?_, ?_⟩
      · intro h
        simp only [mkNarrow, if_neg hsan, if_neg hes] at h
        exact snc h
      · intro r s' h
        simp only [mkNarrow, if_neg hsan, if_neg hes] at h
        obtain ⟨h1, h2, h3⟩ := sok r s' h
        refine ⟨h1, h2, ?_⟩
        rcases h3 with h3 | h3
        · exact Or.inr (Or.inl h3)
        · exact Or.inl h3

theorem step_sol_spec (E : Engine) (hE : EngineOK E) : ∀ s,
    (mkSolve E s ≠ .crash) ∧
    (∀ r s', mkSolve E s = .ok r s' →
      FixExt s s' ∧ (AllSorted s → AllSorted s') ∧ (r = 1 ∨ r = -1)) := by
  intro s
  cases hnar : E.narrow s with
  | crash => exact absurd hnar (hE.nar_nocrash s)
  | nofuel =>
    refine ⟨?_, ?_⟩
    · simp [mkSolve, hnar, Res.andThen]
    · intro r s' h
      simp only [mkSolve, hnar, Res.andThen] at h
      exact Res.noConfusion h
  | ok rn s1 =>
    obtain ⟨hext1, hsort1, hcode1⟩ := hE.nar_ok s rn s1 hnar
    by_cases hrn : rn = 0
    · by_cases hsolved : is_solved s1 = 1
      · refine ⟨?_, ?_⟩
        · simp [mkSolve, hnar, Res.andThen, hrn, hsolved]
        · intro r s' h
          simp only [mkSolve, hnar, Res.andThen, hrn] at h
          simp only [if_pos hsolved] at h
          simp only [ne_eq, not_true_eq_false, if_false, Res.ok.injEq] at h
          rw [← h.1, ← h.2]
          exact ⟨hext1, hsort1, Or.inl rfl⟩
      · cases hmrv : mrvTarget s1 with
        | none =>
          refine ⟨?_, ?_⟩
          · simp [mkSolve, hnar, Res.andThen, hrn, hsolved, hmrv]
          · intro r s' h
            simp only [mkSolve, hnar, Res.andThen, hrn] at h
            simp only [if_neg hsolved, hmrv] at h
            simp only [ne_eq, not_true_eq_false, if_false, Res.ok.injEq] at h
            rw [← h.1, ← h.2]
            exact ⟨hext1, hsort1, Or.inr rfl⟩
        | some q =>
          refine ⟨?_, ?_⟩
          · intro h
            simp only [mkSolve, hnar, Res.andThen, hrn] at h
            simp only [if_neg hsolved, hmrv] at h
            simp only [ne_eq, not_true_eq_false, if_false] at h
            exact hE.loop_nocrash q s1 h
          · intro r s' h
            simp only [mkSolve, hnar, Res.andThen, hrn] at h
            simp only [if_neg hsolved, hmrv] at h
            simp only [ne_eq, not_true_eq_false, if_false] at h
            obtain ⟨h1, h2, h3⟩ := hE.loop_ok q s1 r s' h
            exact ⟨FixExt_trans hext1 h1, fun hs => h2 (hsort1 hs), h3⟩
    · refine ⟨?_, ?_⟩
      · simp [mkSolve, hnar, Res.andThen, hrn]
      · intro r s' h
        simp only [mkSolve, hnar, Res.andThen] at h
        rw [if_pos hrn] at h
        simp only [Res.ok.injEq] at h
        rw [← h.1, ← h.2]
        refine ⟨hext1, hsort1, ?_⟩
        rcases hcode1 with h3 | h3 | h3
        · exact Or.inr h3
        · exact absurd h3 hrn
        · exact Or.inl h3

theorem step_loop_spec (E : Engine) (hE : EngineOK E) : ∀ p s,
    (mkSolveLoop E p s s ≠ .crash) ∧
    (∀ r s', mkSolveLoop E p s s = .ok r s' →
      FixExt s s' ∧ (AllSorted s → AllSorted s') ∧ (r = 1 ∨ r = -1)) := by
  intro p s
  cases hsp : s p with
  | fixed w g =>
    have hrw : mkSolveLoop E p s s = E.solve s := by
      simp only [mkSolveLoop, hsp]
    rw [hrw]
    exact ⟨hE.sol_nocrash s, hE.sol_ok s⟩
  | cands l =>
    cases l with
    | nil =>
      have hrw : mkSolveLoop E p s s = .ok (-1) s := by
        simp only [mkSolveLoop, hsp]
      rw [hrw]
      refine ⟨fun h => Res.noConfusion h, ?_⟩
      intro r s' h
      simp only [Res.ok.injEq] at h
      rw [← h.1, ← h.2]
      exact ⟨FixExt_refl s, fun hs => hs, Or.inr rfl⟩
    | cons x xs =>
      have hg : least_constraining_value s p ∈ x :: xs :=
        lcv_mem hsp (List.cons_ne_nil x xs)
      obtain ⟨btnc, btok⟩ := backtrack_spec E hE p s
        (least_constraining_value s p) (x :: xs) hsp hg
      cases hf : E.fill_in_square s p (least_constraining_value s p) with
      | crash => exact absurd hf (hE.fill_nocrash s p _)
      | nofuel =>
        have hrw : mkSolveLoop E p s s = .nofuel := by
          simp only [mkSolveLoop, hsp, hf, Res.andThen]
        rw [hrw]
        exact ⟨fun h => Res.noConfusion h, fun r s' h => Res.noConfusion h⟩
      | ok r1 s1 =>
        obtain ⟨hext1, hsort1, hcode1⟩ := hE.fill_ok s p _ r1 s1 hf
        by_cases hr1 : r1 = 0
        · cases hsv : E.solve s1 with
          | crash => exact absurd hsv (hE.sol_nocrash s1)
          | nofuel =>
            have hrw : mkSolveLoop E p s s = .nofuel := by
              simp only [mkSolveLoop, hsp, hf, Res.andThen, if_pos hr1, hsv]
            rw [hrw]
            exact ⟨fun h => Res.noConfusion h, fun r s' h => Res.noConfusion h⟩
          | ok rg s2 =>
            obtain ⟨hext2, hsort2, hcode2⟩ := hE.sol_ok s1 rg s2 hsv
            rcases hcode2 with rfl | rfl
            · have hrw : mkSolveLoop E p s s = .ok 1 s2 := by
                simp only [mkSolveLoop, hsp, hf, Res.andThen, if_pos hr1, hsv]
                simp
              rw [hrw]
              refine ⟨fun h => Res.noConfusion h, ?_⟩
              intro r s' h
              simp only [Res.ok.injEq] at h
              rw [← h.1, ← h.2]
              exact ⟨FixExt_trans hext1 hext2, fun hs => hsort2 (hsort1 hs), Or.inl rfl⟩
            · have hrw : mkSolveLoop E p s s =
                  (match remove_value s p (least_constraining_value s p) with
                   | none => Res.crash
                   | some s3 =>
                     (E.analise_empty_value s3 p).andThen (fun ra s4 =>
                       if ra = -1 then .ok (-1) s4 else E.solveLoop p s4 s4)) := by
                simp only [mkSolveLoop, hsp, hf, Res.andThen, if_pos hr1, hsv]
                norm_num
              rw [hrw]
              exact ⟨btnc, btok⟩
        · rcases hcode1 with h0 | hm1 | ⟨hm2, hs1⟩
          · exact absurd h0 hr1
          · have hrw : mkSolveLoop E p s s =
                (match remove_value s p (least_constraining_value s p) with
                 | none => Res.crash
                 | some s3 =>
                   (E.analise_empty_value s3 p).andThen (fun ra s4 =>
                     if ra = -1 then .ok (-1) s4 else E.solveLoop p s4 s4)) := by
              simp only [mkSolveLoop, hsp, hf, Res.andThen, if_neg hr1, hm1]
              norm_num
            rw [hrw]
            exact ⟨btnc, btok⟩
          · have hrw : mkSolveLoop E p s s = E.solveLoop p s1 s := by
              simp only [mkSolveLoop, hsp, hf, Res.andThen, if_neg hr1, hm2]
              norm_num
            rw [hrw, hs1]
            exact ⟨hE.loop_nocrash p s, hE.loop_ok p s⟩

theorem engineOK_step (E : Engine) (hE : EngineOK E) : EngineOK (stepEngine E) where
  fill_ok := step_fill_ok E hE
  fill_empty := step_fill_empty E hE
  fill_nocrash := step_fill_nocrash E hE
  an_ok := step_an_ok E hE
  an_empty := fun n s p r s' hn h => step_an_empty E hE n s p r s' hn h
  an_onempty := step_an_onempty E
  an_nocrash := step_an_nocrash E hE
  nar_ok := fun s => (step_nar_spec E hE s).2
  nar_nocrash := fun s => (step_nar_spec E hE s).1
  sol_ok := fun s => (step_sol_spec E hE s).2
  sol_nocrash := fun s => (step_sol_spec E hE s).1
  loop_ok := fun p s => (step_loop_spec E hE p s).2
  loop_nocrash := fun p s => (step_loop_spec E hE p s).1

theorem engine_ok : ∀ n, EngineOK (engine n) := by
  intro n
  induction n with
  | zero => exact engine0_ok
  | succ n ih => exact engineOK_step (engine n) ih


theorem remove_value_allSorted {s s' : GState} {p : Pos} {v : Nat}
    (h : AllSorted s) (hrem : remove_value s p v = some s') : AllSorted s' := by
  unfold remove_value at hrem
  cases hsp : s p with
  | fixed w g =>
    simp only [hsp] at hrem
    injection hrem with h'
    rw [← h']
    exact h
  | cands l =>
    simp only [hsp] at hrem
    by_cases hv : v ∈ l
    · rw [if_pos hv] at hrem
      injection hrem with h'
      rw [← h']
      exact AllSorted_setCell_cands h p ((h p l hsp).erase v)
    · rw [if_neg hv] at hrem
      exact Option.noConfusion hrem

/-! ### The claims -/

/-- C2: whenever the solver reports the puzzle unsolvable — by the initial
conflict check (`check = -1`) or because the recursive search returned −1 —
the returned 9x9 array has every entry equal to −1 (never a mix of digits
and −1 entries). -/
theorem claim_C2 (fuel : Nat) (s : GState) (out : Pos → OCell)
    (hout : get_solved_numpy fuel s = some out)
    (huns : check s = -1 ∨ ∃ s', (engine fuel).solve s = .ok (-1) s') :
    ∀ p, out p = .num (-1) := by
  intro p
  unfold get_solved_numpy at hout
  rcases huns with hchk | ⟨s', hsv⟩
  · rw [if_pos hchk] at hout
    injection hout with h
    rw [← h]
    simp [get_numpy_proper_state]
  · by_cases hchk : check s = -1
    · rw [if_pos hchk] at hout
      injection hout with h
      rw [← h]
      simp [get_numpy_proper_state]
    · rw [if_neg hchk, hsv] at hout
      injection hout with h
      rw [← h]
      simp [get_numpy_proper_state]

theorem claim_C2_witness :
    ∃ out, get_solved_numpy 1 (setupState twoFivesGrid) = some out ∧
      out (3, 3) = .num (-1) := by
  refine ⟨get_numpy_proper_state (setupState twoFivesGrid) (-1), rfl, ?_⟩
  exact claim_C2 1 (setupState twoFivesGrid) _ rfl (Or.inl rfl) (3, 3)

/-- C3: if the solver completes a grid to a Solved output (the recursive
`solve` returns 1), the returned array is the final state's array and every
cell that was nonzero in the input still holds that digit there — fixed cells
are never overwritten by construction, propagation, search or restore. -/
theorem claim_C3 (fuel : Nat) (input : Pos → Nat) (s' : GState)
    (hsv : (engine fuel).solve (setupState input) = .ok 1 s') :
    (check (setupState input) ≠ -1 →
      get_solved_numpy fuel (setupState input) =
        some (get_numpy_proper_state s' 1)) ∧
    ∀ p, input p ≠ 0 → get_numpy_proper_state s' 1 p = .num (input p) := by
  constructor
  · intro hchk
    unfold get_solved_numpy
    rw [if_neg hchk, hsv]
  · intro p hp
    have hext := ((engine_ok fuel).sol_ok (setupState input) 1 s' hsv).1
    obtain ⟨g', hg'⟩ := hext p (input p) ⟨[], setup_fixed hp⟩
    simp [get_numpy_proper_state, hg']

theorem claim_C3_witness :
    ∃ s', (engine 2).solve (setupState fullGridInput) = .ok 1 s' ∧
      get_numpy_proper_state s' 1 (0, 1) = .num (fullGridInput (0, 1)) := by
  refine ⟨setupState fullGridInput, rfl, ?_⟩
  exact (claim_C3 2 fullGridInput _ (by rfl)).2 (0, 1) (by decide)

/-- C4: a `fill_in_square` call on a candidate cell whose neighbourhood
contains an empty neighbour holding exactly `[v]` (so that removing the
filled digit empties that neighbour's candidate set) reports the
contradiction: whenever the call returns a code, that code is −1. -/
theorem claim_C4 (fuel : Nat) (s : GState) (p : Pos) (v : Nat) (l : List Nat)
    (n : Pos) (hsp : s p = .cands l)
    (hnmem : n ∈ emptyNeighborKeys s p true true true)
    (hn : s n = .cands [v]) :
    ∀ r s', (engine fuel).fill_in_square s p v = .ok r s' → r = -1 := by
  intro r s' h
  cases fuel with
  | zero => exact Res.noConfusion h
  | succ m =>
    exact step_fill_contra (engine m) (engine_ok m) s p v l n r s' hsp hnmem hn h

theorem claim_C4_witness :
    ∃ r s', (engine 2).fill_in_square c4State (0, 0) 3 = .ok r s' ∧ r = -1 := by
  have hrun : ∃ s', (engine 2).fill_in_square c4State (0, 0) 3 = .ok (-1) s' :=
    ⟨_, rfl⟩
  obtain ⟨s', hs'⟩ := hrun
  exact ⟨-1, s', hs',
    claim_C4 2 c4State (0, 0) 3 [3, 5] (0, 1) rfl (by decide) rfl (-1) s' hs'⟩

/-- C5 counterexample: on a candidate cell that does not contain the digit,
`remove_value` is not a no-op — `list.remove` raises `ValueError`
(modelled as `none`), so the claim fails at this concrete state. -/
theorem claim_C5_counterexample : remove_value c5State (0, 0) 5 = none := rfl

/-- C5 amended: `remove_value` is a no-op on a Fixed cell, but on a candidate
cell that does not contain the digit it fails (raises `ValueError`) instead
of being a no-op. -/
theorem claim_C5_amended (s : GState) (p : Pos) (d : Nat) :
    (∀ w g, s p = .fixed w g → remove_value s p d = some s) ∧
    (∀ l, s p = .cands l → d ∉ l → remove_value s p d = none) := by
  constructor
  · intro w g hw
    simp [remove_value, hw]
  · intro l hl hd
    simp [remove_value, hl, hd]

theorem claim_C5_witness :
    remove_value (fun _ => Cell.fixed 7 []) (0, 0) 3 =
      some (fun _ => Cell.fixed 7 []) ∧
    remove_value c5State (1, 1) 4 = none :=
  ⟨(claim_C5_amended (fun _ => Cell.fixed 7 []) (0, 0) 3).1 7 [] rfl,
   (claim_C5_amended c5State (1, 1) 4).2 [1, 2] rfl (by decide)⟩

/-- C6 counterexample: calling `fill_in_square` on an already-Fixed cell does
not signal a fatal internal error: it returns the ordinary sentinel code −2
with the state unchanged (callers silently pass this value through). -/
theorem claim_C6_counterexample :
    (engine 1).fill_in_square c6State (0, 0) 3 = .ok (-2) c6State ∧
    ((-2 : Int) ≠ -1) := ⟨rfl, by decide⟩

/-- C6 amended: `fill_in_square` on an already-Fixed cell returns the sentinel
code −2 (distinct from the Contradiction code −1) with the grid unchanged, an
ordinary return value that callers silently ignore rather than a fatal
error. -/
theorem claim_C6_amended (fuel : Nat) (s : GState) (p : Pos) (v w : Nat)
    (g : List Nat) (h : s p = .fixed w g) :
    (engine (fuel + 1)).fill_in_square s p v = .ok (-2) s ∧ ((-2 : Int) ≠ -1) := by
  constructor
  · show mkFillIn (engine fuel) s p v = .ok (-2) s
    simp [mkFillIn, h]
  · decide

theorem claim_C6_witness :
    (engine 3).fill_in_square c6State (0, 0) 3 = .ok (-2) c6State ∧
    ((-2 : Int) ≠ -1) :=
  claim_C6_amended 2 c6State (0, 0) 3 5 [] rfl

/-- C7: the nine positions of `narrow`'s sanity pass cover all nine rows,
columns and boxes exactly once each, and whenever some digit 1–9 is neither
fixed nor present as a candidate anywhere in the row, column or box of one of
those positions, `narrow` returns Unsolvable (−1) leaving the state
unchanged. -/
theorem claim_C7 :
    ((diag_positions.map (fun p => p.1)).Perm (List.range 9) ∧
     (diag_positions.map (fun p => p.2)).Perm (List.range 9) ∧
     (diag_positions.map (fun p => (p.1 / 3, p.2 / 3))).Perm
       ((List.range 3).flatMap (fun i => (List.range 3).map (fun j => (i, j))))) ∧
    ∀ (s : GState) (fuel : Nat),
      (∃ p ∈ diag_positions, ∃ i ∈ List.range 3, ∃ v ∈ List.range' 1 9,
        unitHasValue s (unit_keys p i) v = false) →
      (engine (fuel + 1)).narrow s = .ok (-1) s := by
  constructor
  · exact ⟨by decide, by decide, by decide⟩
  · intro s fuel hex
    have hsan : sanityFails s = true := by
      simp only [sanityFails, List.any_eq_true]
      obtain ⟨p, hp, i, hi, v, hv, hval⟩ := hex
      exact ⟨p, hp, i, hi, v, hv, by simp [hval]⟩
    show mkNarrow (engine fuel) s = .ok (-1) s
    simp [mkNarrow, hsan]

theorem claim_C7_witness : (engine 1).narrow c7State = .ok (-1) c7State :=
  claim_C7.2 c7State 0 (by decide)

/-- C8: on a cell holding a strictly ascending candidate list,
`least_constraining_value` returns a candidate minimizing the number of empty
neighbours that list it, with ties broken towards the smallest digit — so the
guess loop of `solve`, which recomputes it from the live list on every
iteration, tries digits in ascending (count, digit) order. -/
theorem claim_C8 (s : GState) (p : Pos) (l : List Nat)
    (hsp : s p = .cands l) (hne : l ≠ []) (hsort : l.Pairwise (· < ·)) :
    least_constraining_value s p ∈ l ∧
    ∀ d ∈ l,
      constraintCount s p (least_constraining_value s p) < constraintCount s p d ∨
      (constraintCount s p (least_constraining_value s p) = constraintCount s p d ∧
       least_constraining_value s p ≤ d) := by
  obtain ⟨hmem, heq, hmin, htie⟩ := sortmap_headD_spec (constraintCount s p) l hne hsort
  have hlcv : least_constraining_value s p =
      ((sortBySnd (l.map (fun v => (v, constraintCount s p v)))).headD (0, 0)).1 := by
    unfold least_constraining_value
    rw [derefList_cands hsp]
  constructor
  · rw [hlcv]
    exact hmem
  · intro d hd
    rw [hlcv]
    have hle : constraintCount s p
        (((sortBySnd (l.map (fun v => (v, constraintCount s p v)))).headD (0, 0)).1) ≤
        constraintCount s p d := by
      rw [← heq]
      exact hmin d hd
    rcases lt_or_eq_of_le hle with hlt | heq2
    · exact Or.inl hlt
    · exact Or.inr ⟨heq2, htie d hd ((heq.trans heq2).symm)⟩

theorem claim_C8_witness :
    least_constraining_value c8State (0, 0) ∈ [2, 4, 6] ∧
    (constraintCount c8State (0, 0) (least_constraining_value c8State (0, 0)) <
       constraintCount c8State (0, 0) 4 ∨
     (constraintCount c8State (0, 0) (least_constraining_value c8State (0, 0)) =
        constraintCount c8State (0, 0) 4 ∧
      least_constraining_value c8State (0, 0) ≤ 4)) :=
  ⟨(claim_C8 c8State (0, 0) [2, 4, 6] rfl (by decide) (by decide)).1,
   (claim_C8 c8State (0, 0) [2, 4, 6] rfl (by decide) (by decide)).2 4 (by decide)⟩

/-- C9: at every reachable state, every candidate list is strictly ascending
(hence its digits are distinct) and all its digits lie in 1..9: `setup`
initializes lists as ascending ranges and every mutation — candidate removal,
`fill_in_square`'s removal pass and cascades, `analise_empty_value`, `narrow`,
`solve`, the guess loop and its snapshot restore — preserves this. -/
theorem claim_C9 (s : GState) (hreach : Reachable s) :
    ∀ p l, s p = .cands l →
      l.Pairwise (· < ·) ∧ ∀ v ∈ l, v ∈ List.range' 1 9 := by
  have hall : AllSorted s := by
    induction hreach with
    | init input => exact setup_allSorted input
    | fillStep fuel s p v r s' _ hstep ih =>
      exact ((engine_ok fuel).fill_ok s p v r s' hstep).2.1 ih
    | analiseStep fuel s p r s' _ hstep ih =>
      exact ((engine_ok fuel).an_ok s p r s' hstep).2.1 ih
    | narrowStep fuel s r s' _ hstep ih =>
      exact ((engine_ok fuel).nar_ok s r s' hstep).2.1 ih
    | solveStep fuel s r s' _ hstep ih =>
      exact ((engine_ok fuel).sol_ok s r s' hstep).2.1 ih
    | loopStep fuel p s r s' _ hstep ih =>
      exact ((engine_ok fuel).loop_ok p s r s' hstep).2.1 ih
    | removeStep s p v s' _ hrem ih =>
      exact remove_value_allSorted ih hrem
  exact fun p l hpl => hall p l hpl

theorem claim_C9_witness :
    setupState c9Input (0, 0) = .cands (List.range' 1 9) ∧
    (List.range' 1 9).Pairwise (· < ·) :=
  ⟨rfl, (claim_C9 (setupState c9Input) (Reachable.init c9Input) (0, 0)
    (List.range' 1 9) rfl).1⟩

/-- C10: neither `solve` nor its guess loop (whose snapshot equals the live
grid at every loop head) can ever hit the failing `remove_value` call: the
restored snapshot always still lists the guessed digit, so the engine never
reaches the `crash` outcome. -/
theorem claim_C10 (fuel : Nat) (s : GState) (p : Pos) (live : GState) :
    (engine fuel).solve s ≠ .crash ∧
    (engine fuel).solveLoop p live live ≠ .crash :=
  ⟨(engine_ok fuel).sol_nocrash s, (engine_ok fuel).loop_nocrash p live⟩
